import Mathlib

/-
Verification of the ITQ small-code generation pipeline implemented in
bin/scripts/runners/memex_hbase_gpu_machine/itq_training/add_codes.py.

The embedding is generic over a linear ordered commutative ring of scalars,
so every theorem holds in particular for the real numbers (the intended
numeric semantics); concrete evaluations instantiate the scalars with the
integers.

Modelling conventions:
  - a descriptor element (PostgresDescriptorElement) is an identity plus a
    feature vector; the field truthy records Python truthiness of the object;
  - a queue packet is an optional element, where the value none is the
    terminal packet (the None sentinel) placed on the input queue;
  - the D-by-B rotation matrix r is represented by its list of B columns,
    each of length D, so that the numpy expression np.dot(c, r) for a
    row vector c of length D is the list of dot products of c with each
    column;
  - a worker is modelled by the list of packets it dequeues, in order; an
    exhausted packet list models a worker blocked forever on in_q.get with
    no further effects;
  - an unhandled exception inside the worker (a numpy shape error during
    quantization) kills the worker process: the model records ok = false
    and the worker emits nothing further;
  - the dispatcher distributes the fed elements among the procs workers
    according to a schedule list that names, for each element in feed
    order, the worker that dequeues it; the collected output is modelled
    up to interleaving by the concatenation of the per-worker output
    streams, and a collection that waits for more results than the workers
    ever produce is modelled by the value none (the collector blocks
    forever in out_q.get).
-/

namespace AddCodes

/-- A descriptor element: a stable identity plus its feature vector. The
field truthy models Python truthiness of the element object. -/
structure Elem (α : Type) where
  uuid : ℕ
  vec : List α
  truthy : Bool
deriving DecidableEq, Repr

/-- A packet travelling on the input queue: an element, or the None
terminal sentinel. -/
abbrev Packet (α : Type) := Option (Elem α)

/-- Python truthiness of a packet: None is falsy, an element packet is as
truthy as the element object. -/
def pyTruthy {α : Type} : Packet α → Bool
  | none => false
  | some e => e.truthy

/-- Elementwise difference of two equal-length vectors: the equal-shape
case of the numpy subtraction m - m_vec restricted to one row. -/
def vecSub {α : Type} [LinearOrderedCommRing α] (v m : List α) : List α :=
  List.zipWith (fun a b => a - b) v m

/-- Length of the result of broadcasting one axis of size L against one of
size D under the numpy rule (defined when L = D, L = 1 or D = 1): a size-1
axis stretches to the other size, equal sizes stay. -/
def broadcastDim (L D : ℕ) : ℕ :=
  if L = 1 then D else L

/-- The numpy broadcast subtraction of one batch row v against the mean
vector: equal lengths subtract elementwise; a length-1 row spreads its
single entry across the mean; a length-1 mean spreads its single entry
across the row. The remaining (incompatible) case never reaches the code
path because shapesOk guards every use. -/
def broadcastSub {α : Type} [LinearOrderedCommRing α] (v m_vec : List α) :
    List α :=
  if v.length = m_vec.length then vecSub v m_vec
  else if v.length = 1 then m_vec.map (fun b => v.getD 0 0 - b)
  else v.map (fun a => a - m_vec.getD 0 0)

/-- Dot product of two equal-length vectors. -/
def dotProd {α : Type} [LinearOrderedCommRing α] (u v : List α) : α :=
  (List.zipWith (fun a b => a * b) u v).sum

/-- Product of a row vector with a matrix given by its columns: the numpy
expression np.dot(c, r) where r has the given columns. -/
def rowTimesMat {α : Type} [LinearOrderedCommRing α] (c : List α) (cols : List (List α)) : List α :=
  cols.map (fun col => dotProd c col)

/-- Threshold of one projected component, from the statement b[z >= 0] = 1
(lines 91-92 of add_codes.py): the bit is 1 exactly when the component is
greater than or equal to zero. -/
def signBit {α : Type} [LinearOrderedCommRing α] (x : α) : Bool :=
  decide (0 ≤ x)

/-- Modelled from the spec: the function bit_vector_to_int from
smqtk.utils.bit_utils is imported by add_codes.py but its source is not in
the repository snapshot. The spec requires packing the B bits into a single
unsigned integer under one fixed bit-to-position convention applied
uniformly; we fix the convention that bit 0 is the most significant bit. -/
def bit_vector_to_int (bits : List Bool) : ℕ :=
  bits.foldl (fun acc b => 2 * acc + (if b then 1 else 0)) 0

/-- The small code of a single vector v: bit-pack the sign pattern of
z = (v - mean) . r, following lines 89-93 of add_codes.py elementwise.
The row subtraction is the numpy broadcast subtraction, which coincides
with the plain elementwise difference when v has the length of the mean. -/
def smallCode {α : Type} [LinearOrderedCommRing α]
    (cols : List (List α)) (m_vec : List α) (v : List α) : ℕ :=
  bit_vector_to_int ((rowTimesMat (broadcastSub v m_vec) cols).map signBit)

/-- The small code of an element is the small code of its vector. -/
def elemCode {α : Type} [LinearOrderedCommRing α]
    (cols : List (List α)) (m_vec : List α) (e : Elem α) : ℕ :=
  smallCode cols m_vec e.vec

/-- Shape semantics of the numpy expressions of lines 88-90.
np.array of the batch forms a two-dimensional array only when all vectors
share one length L (a ragged batch yields an object array whose
elementwise subtraction then fails); the broadcast subtraction m - m_vec
of shapes (n, L) and (D,) succeeds exactly when L = D, L = 1 or D = 1,
giving shape (n, broadcastDim L D); np.dot does not broadcast, so the
rotation row count (the length of every column) must equal that broadcast
dimension. An empty batch never reaches the quantization in
SmallCodeProcess.run (lines 87 and 98 both guard emission by a non-empty
d_elems), and the model lets it pass vacuously. -/
def shapesOk {α : Type} (cols : List (List α)) (m_vec : List α)
    (vecs : List (List α)) : Bool :=
  match vecs with
  | [] => true
  | v0 :: _ =>
    vecs.all (fun v => v.length == v0.length) &&
    ((v0.length == m_vec.length || v0.length == 1 || m_vec.length == 1) &&
      cols.all (fun c => c.length == broadcastDim v0.length m_vec.length))

/-- The one failure mode of the quantization step: a numpy shape error. -/
inductive QuantizeError : Type where
  | shapeMismatch : QuantizeError
deriving DecidableEq, Repr

/-- The quantizer of lines 88-93 of add_codes.py as a fallible function:
given the rotation columns, the mean vector and a batch of vectors, either
the shapes are numpy-broadcast-compatible and each vector is mapped to its
small code over its broadcast row, or the numpy shape error is raised. -/
def quantize {α : Type} [LinearOrderedCommRing α]
    (cols : List (List α)) (m_vec : List α) (vecs : List (List α)) :
    Except QuantizeError (List ℕ) :=
  if shapesOk cols m_vec vecs then
    Except.ok (vecs.map (fun v => smallCode cols m_vec v))
  else
    Except.error QuantizeError.shapeMismatch

/-- Result of one worker run: the pairs it put on the output queue in
order, and whether it finished without an unhandled exception. -/
structure RunResult (α : Type) where
  out : List (ℕ × Elem α)
  ok : Bool
deriving DecidableEq, Repr

/-- Quantize the accumulated batch d_elems and zip each code with its
element, as in the loop for bits, d in zip(b, d_elems) of lines 92-93. -/
def emitBatch {α : Type} [LinearOrderedCommRing α]
    (cols : List (List α)) (m_vec : List α) (d_elems : List (Elem α)) :
    Except QuantizeError (List (ℕ × Elem α)) :=
  Except.map (fun codes => codes.zip d_elems)
    (quantize cols m_vec (d_elems.map Elem.vec))

/-- Outcome of the final flush from one attempted batch emission: either
the pairs go out and the worker finishes cleanly, or the shape error kills
the worker and nothing goes out. -/
def flushResult {α : Type}
    (eb : Except QuantizeError (List (ℕ × Elem α))) : RunResult α :=
  match eb with
  | Except.ok outs => ⟨outs, true⟩
  | Except.error _ => ⟨[], false⟩

/-- The flush after the while loop of SmallCodeProcess.run (lines 98-106):
if the pending batch is non-empty it is quantized and emitted; a shape
error kills the worker. -/
def flushTail {α : Type} [LinearOrderedCommRing α]
    (cols : List (List α)) (m_vec : List α) (d_elems : List (Elem α)) :
    RunResult α :=
  if d_elems.isEmpty then ⟨[], true⟩
  else flushResult (emitBatch cols m_vec d_elems)

/-- Outcome of one in-loop batch emission followed by the rest of the run:
on success the batch pairs precede whatever the rest of the run emits; on
a shape error the worker dies at once, emits nothing further and the rest
of the run never happens. -/
def stepFull {α : Type}
    (eb : Except QuantizeError (List (ℕ × Elem α))) (rest : RunResult α) :
    RunResult α :=
  match eb with
  | Except.ok outs => ⟨outs ++ rest.out, rest.ok⟩
  | Except.error _ => ⟨[], false⟩

/-- The body of SmallCodeProcess.run (lines 74-106) over the list of
packets the worker dequeues, carrying the accumulated batch d_elems. The
while loop runs as long as the dequeued packet is truthy; a full batch is
quantized and emitted inside the loop; the first falsy packet exits the
loop and the pending batch is flushed. An exhausted packet list models a
worker blocked forever on in_q.get. -/
def runLoop {α : Type} [LinearOrderedCommRing α]
    (batch : ℕ) (cols : List (List α)) (m_vec : List α) :
    List (Packet α) → List (Elem α) → RunResult α
  | [], _ => ⟨[], true⟩
  | none :: _, d_elems => flushTail cols m_vec d_elems
  | some e :: ps, d_elems =>
    if e.truthy then
      if batch ≤ (d_elems ++ [e]).length then
        stepFull (emitBatch cols m_vec (d_elems ++ [e]))
          (runLoop batch cols m_vec ps [])
      else
        runLoop batch cols m_vec ps (d_elems ++ [e])
    else
      flushTail cols m_vec d_elems

/-- A whole worker run starts with an empty batch. -/
def SmallCodeProcess_run {α : Type} [LinearOrderedCommRing α]
    (batch : ℕ) (cols : List (List α)) (m_vec : List α)
    (packets : List (Packet α)) : RunResult α :=
  runLoop batch cols m_vec packets []

/-- Default batch size of SmallCodeProcess (line 66 of add_codes.py); the
dispatcher constructs its workers without overriding it. -/
def default_batch : ℕ := 500

/-- The elements dequeued by worker w, in feed order: the schedule list
names, for each element, the worker that dequeues it from the shared
input queue. -/
def assignedTo {α : Type} (w : ℕ) (sched : List ℕ) (elems : List (Elem α)) :
    List (Elem α) :=
  ((sched.zip elems).filter (fun p => p.1 == w)).map Prod.snd

/-- The packet list worker w dequeues: its assigned elements in order,
followed by the one terminal sentinel it consumes before exiting. -/
def workerPackets {α : Type} (w : ℕ) (sched : List ℕ)
    (elems : List (Elem α)) : List (Packet α) :=
  (assignedTo w sched elems).map some ++ [none]

/-- Everything the dispatcher puts on the input queue (lines 139-148 of
add_codes.py): the N elements, then exactly procs terminal sentinels. -/
def fedPackets {α : Type} (elems : List (Elem α)) (procs : ℕ) :
    List (Packet α) :=
  elems.map some ++ List.replicate procs none

/-- All pairs placed on the output queue across the run, worker by worker;
the actual collected order is some interleaving of the per-worker streams,
so counting and multiset statements are insensitive to the choice. -/
def dispatchOutputs {α : Type} [LinearOrderedCommRing α]
    (procs : ℕ) (cols : List (List α)) (m_vec : List α)
    (elems : List (Elem α)) (sched : List ℕ) : List (ℕ × Elem α) :=
  (List.range procs).flatMap
    (fun w => (SmallCodeProcess_run default_batch cols m_vec
                (workerPackets w sched elems)).out)

/-- The dispatcher async_compute_smallcodes (lines 109-175): after feeding
the N elements and the sentinels it collects exactly N pairs from the
output queue with no timeout, so it returns the N pairs when the workers
produce at least that many, and blocks forever in out_q.get (modelled by
none) when they produce fewer. -/
def async_compute_smallcodes {α : Type} [LinearOrderedCommRing α]
    (procs : ℕ) (cols : List (List α)) (m_vec : List α)
    (elems : List (Elem α)) (sched : List ℕ) :
    Option (List (ℕ × Elem α)) :=
  if elems.length ≤ (dispatchOutputs procs cols m_vec elems sched).length then
    some ((dispatchOutputs procs cols m_vec elems sched).take elems.length)
  else
    none

/-- Configuration of a multiprocessing.Queue: its maxsize bound, or none
for an unbounded queue. -/
structure QueueConfig where
  maxsize : Option ℕ
deriving DecidableEq, Repr

/-- The input queue of line 120 of add_codes.py: multiprocessing.Queue()
with no bound. -/
def make_in_q : QueueConfig := ⟨none⟩

/-- The output queue of line 121 of add_codes.py:
multiprocessing.Queue(procs*2). -/
def make_out_q (procs : ℕ) : QueueConfig := ⟨some (procs * 2)⟩

/-- One event on a queue. -/
inductive QEvent : Type where
  | put : QEvent
  | get : QEvent
deriving DecidableEq, Repr

/-- Validity of an event trace on a queue with the given bound, starting
from occupancy n: a put happens only when the queue is below its bound (a
blocked put never completes while full), and a get only when the queue is
non-empty. -/
def validFrom (bound : Option ℕ) : ℕ → List QEvent → Bool
  | _, [] => true
  | n, QEvent.put :: tr =>
    (match bound with
     | none => true
     | some b => decide (n < b)) && validFrom bound (n + 1) tr
  | n, QEvent.get :: tr => decide (0 < n) && validFrom bound (n - 1) tr

/-- All occupancies a queue passes through along a trace, the start
included. -/
def occupancies : ℕ → List QEvent → List ℕ
  | n, [] => [n]
  | n, QEvent.put :: tr => n :: occupancies (n + 1) tr
  | n, QEvent.get :: tr => n :: occupancies (n - 1) tr

/-- A packet list contains a falsy packet, so the receive loop of a worker
consuming it reaches its exit. -/
def observes_sentinel {α : Type} (ps : List (Packet α)) : Bool :=
  ps.any (fun p => !(pyTruthy p))

/-- Modelled from the spec (the specification side of the refinement for
the quantizer): the code of a projected vector z is the sum over positions
i of 2 to the power length - 1 - i exactly when the component z i is
greater than or equal to zero, which packs bit i at the most significant
end first. -/
def spec_sign_pattern_code {α : Type} [LinearOrderedCommRing α]
    (z : List α) : ℕ :=
  ((List.range z.length).map
    (fun i => if 0 ≤ z.getD i 0 then 2 ^ (z.length - 1 - i) else 0)).sum

/-- Every element of the list is a truthy element whose vector has the
dimensionality of the mean vector. -/
def GoodElems {α : Type} (m_vec : List α) (l : List (Elem α)) : Prop :=
  ∀ e ∈ l, e.truthy = true ∧ e.vec.length = m_vec.length

/-- Every column of the rotation has the length of the mean vector. -/
def ColsOk {α : Type} (cols : List (List α)) (m_vec : List α) : Prop :=
  ∀ c ∈ cols, c.length = m_vec.length

instance {α : Type} {m_vec : List α} {l : List (Elem α)} :
    Decidable (GoodElems m_vec l) :=
  List.decidableBAll _ l

instance {α : Type} {cols : List (List α)} {m_vec : List α} :
    Decidable (ColsOk cols m_vec) :=
  List.decidableBAll _ cols

lemma zip_map_self_snd {β γ : Type} (f : β → γ) (l : List β) :
    ((l.map f).zip l).map Prod.snd = l := by
  apply List.map_snd_zip
  simp

lemma mem_zip_map_self {β γ : Type} (f : β → γ) {l : List β} {p : γ × β}
    (hp : p ∈ (l.map f).zip l) : p.1 = f p.2 ∧ p.2 ∈ l := by
  induction l with
  | nil => simp at hp
  | cons x xs ih =>
    simp only [List.map_cons, List.zip_cons_cons, List.mem_cons] at hp
    rcases hp with h | h
    · subst h
      exact ⟨rfl, List.mem_cons_self x xs⟩
    · rcases ih h with ⟨h1, h2⟩
      exact ⟨h1, List.mem_cons_of_mem x h2⟩

lemma filterMap_id_cons_some {β : Type} (e : β) (l : List (Option β)) :
    (some e :: l).filterMap id = e :: l.filterMap id := rfl

lemma broadcastDim_eq (L D : ℕ) (h : L = D) : broadcastDim L D = D := by
  subst h
  rw [broadcastDim]
  exact ite_self L

lemma shapesOk_of_good {α : Type} {cols : List (List α)} {m_vec : List α}
    {d : List (Elem α)} (hd : GoodElems m_vec d) (hc : ColsOk cols m_vec) :
    shapesOk cols m_vec (d.map Elem.vec) = true := by
  cases d with
  | nil => rfl
  | cons e es =>
    have he0 : e.vec.length = m_vec.length := (hd e (List.mem_cons_self _ _)).2
    rw [List.map_cons, shapesOk, Bool.and_eq_true, Bool.and_eq_true]
    refine ⟨?_, ?_, ?_⟩
    · rw [List.all_eq_true]
      intro v hv
      rcases List.mem_cons.mp hv with rfl | hv2
      · exact beq_iff_eq.mpr rfl
      · rcases List.mem_map.mp hv2 with ⟨x, hx, rfl⟩
        apply beq_iff_eq.mpr
        rw [(hd x (List.mem_cons_of_mem _ hx)).2, he0]
    · rw [Bool.or_eq_true, Bool.or_eq_true]
      exact Or.inl (Or.inl (beq_iff_eq.mpr he0))
    · rw [List.all_eq_true]
      intro c hcm
      rw [broadcastDim_eq _ _ he0]
      exact beq_iff_eq.mpr (hc c hcm)

lemma goodElems_nil {α : Type} {m_vec : List α} :
    GoodElems m_vec ([] : List (Elem α)) := by
  intro e he
  simp at he

lemma flatMap_const_nil {β γ : Type} (ws : List β) :
    ws.flatMap (fun _ => ([] : List γ)) = [] := by
  induction ws with
  | nil => rfl
  | cons w ws ih => rw [List.flatMap_cons, ih, List.nil_append]

lemma flatMap_ite_not_mem {β : Type} (x : ℕ × β) (g : ℕ → List (ℕ × β)) :
    ∀ ws : List ℕ, x.1 ∉ ws →
      ws.flatMap (fun w => if x.1 == w then x :: g w else g w) =
        ws.flatMap g := by
  intro ws
  induction ws with
  | nil => intro _; rfl
  | cons w ws ih =>
    intro h
    rw [List.flatMap_cons, List.flatMap_cons]
    have hne : x.1 ≠ w := fun hh => h (hh ▸ List.mem_cons_self _ _)
    rw [beq_eq_false_iff_ne.mpr hne]
    simp only [Bool.false_eq_true, if_false]
    rw [ih (fun hh => h (List.mem_cons_of_mem _ hh))]

lemma flatMap_ite_insert_perm {β : Type} (x : ℕ × β) (g : ℕ → List (ℕ × β)) :
    ∀ ws : List ℕ, ws.Nodup → x.1 ∈ ws →
      (ws.flatMap (fun w => if x.1 == w then x :: g w else g w)).Perm
        (x :: ws.flatMap g) := by
  intro ws
  induction ws with
  | nil => intro _ h; simp at h
  | cons w ws ih =>
    intro hnd hmem
    rw [List.flatMap_cons, List.flatMap_cons]
    by_cases hx : x.1 = w
    · rw [beq_iff_eq.mpr hx]
      simp only [if_true]
      have hnotin : x.1 ∉ ws := hx ▸ (List.nodup_cons.mp hnd).1
      rw [flatMap_ite_not_mem x g ws hnotin, List.cons_append]
    · rw [beq_eq_false_iff_ne.mpr hx]
      simp only [Bool.false_eq_true, if_false]
      have hmem2 : x.1 ∈ ws := by
        rcases List.mem_cons.mp hmem with h | h
        · exact absurd h hx
        · exact h
      have hper := ih (List.nodup_cons.mp hnd).2 hmem2
      exact (List.Perm.append_left (g w) hper).trans List.perm_middle

lemma flatMap_filter_fst_perm {β : Type} :
    ∀ (l : List (ℕ × β)) (k : ℕ), (∀ p ∈ l, p.1 < k) →
      ((List.range k).flatMap (fun w => l.filter (fun p => p.1 == w))).Perm
        l := by
  intro l
  induction l with
  | nil =>
    intro k _
    simp only [List.filter_nil]
    rw [flatMap_const_nil]
  | cons x l ihl =>
    intro k hk
    have hx : x.1 < k := hk x (List.mem_cons_self _ _)
    have hl : ∀ p ∈ l, p.1 < k := fun p hp => hk p (List.mem_cons_of_mem _ hp)
    have heq : (fun w => (x :: l).filter (fun p => p.1 == w)) =
        (fun w => if x.1 == w then x :: l.filter (fun p => p.1 == w)
                  else l.filter (fun p => p.1 == w)) := by
      funext w
      rw [List.filter_cons]
    rw [heq]
    have hper := flatMap_ite_insert_perm x
      (fun w => l.filter (fun p => p.1 == w)) (List.range k)
      (List.nodup_range k) (List.mem_range.mpr hx)
    exact hper.trans (List.Perm.cons x (ihl k hl))

lemma mem_assignedTo {α : Type} {w : ℕ} {sched : List ℕ}
    {elems : List (Elem α)} {x : Elem α}
    (hx : x ∈ assignedTo w sched elems) : x ∈ elems := by
  unfold assignedTo at hx
  rcases List.mem_map.mp hx with ⟨p, hp, rfl⟩
  exact (List.of_mem_zip (List.mem_of_mem_filter hp)).2

lemma assigned_perm {α : Type} (procs : ℕ) (sched : List ℕ)
    (elems : List (Elem α)) (hlen : sched.length = elems.length)
    (hs : ∀ s ∈ sched, s < procs) :
    ((List.range procs).flatMap (fun w => assignedTo w sched elems)).Perm
      elems := by
  unfold assignedTo
  rw [← List.map_flatMap]
  have hside : ∀ p ∈ sched.zip elems, p.1 < procs := by
    intro p hp
    exact hs p.1 (List.of_mem_zip hp).1
  have hper := flatMap_filter_fst_perm (sched.zip elems) procs hside
  have hmap : (sched.zip elems).map Prod.snd = elems :=
    List.map_snd_zip _ _ (le_of_eq hlen.symm)
  have hfin := hper.map Prod.snd
  rw [hmap] at hfin
  exact hfin

lemma sum_map_range_le (f : ℕ → ℕ) :
    ∀ k, (∀ w, w < k → f w ≤ 1) → ((List.range k).map f).sum ≤ k := by
  intro k
  induction k with
  | zero => intro _; simp
  | succ k ih =>
    intro h
    rw [List.range_succ, List.map_append, List.sum_append]
    have h1 := ih (fun w hw => h w (Nat.lt_succ_of_lt hw))
    have h2 := h k (Nat.lt_succ_self k)
    simp only [List.map_cons, List.map_nil, List.sum_cons, List.sum_nil]
    omega

lemma sum_map_range_all_one (f : ℕ → ℕ) :
    ∀ k, (∀ w, w < k → f w ≤ 1) → ((List.range k).map f).sum = k →
      ∀ w, w < k → f w = 1 := by
  intro k
  induction k with
  | zero => intro _ _ w hw; omega
  | succ k ih =>
    intro hle hsum w hw
    rw [List.range_succ, List.map_append, List.sum_append] at hsum
    simp only [List.map_cons, List.map_nil, List.sum_cons, List.sum_nil] at hsum
    have hs1 : ((List.range k).map f).sum ≤ k :=
      sum_map_range_le f k (fun w2 hw2 => hle w2 (Nat.lt_succ_of_lt hw2))
    have hfk : f k ≤ 1 := hle k (Nat.lt_succ_self k)
    have hfk1 : f k = 1 := by omega
    have hsk : ((List.range k).map f).sum = k := by omega
    rcases Nat.lt_succ_iff_lt_or_eq.mp hw with h | h
    · exact ih (fun w2 hw2 => hle w2 (Nat.lt_succ_of_lt hw2)) hsk w h
    · exact h ▸ hfk1

lemma validFrom_bounded :
    ∀ (tr : List QEvent) (n b : ℕ), validFrom (some b) n tr = true →
      n ≤ b → ∀ m ∈ occupancies n tr, m ≤ b := by
  intro tr
  induction tr with
  | nil =>
    intro n b _ hn m hm
    simp only [occupancies, List.mem_singleton] at hm
    omega
  | cons ev tr ih =>
    intro n b hv hn m hm
    cases ev with
    | put =>
      rw [validFrom] at hv
      simp only [Bool.and_eq_true, decide_eq_true_eq] at hv
      simp only [occupancies, List.mem_cons] at hm
      rcases hm with rfl | hm
      · exact hn
      · exact ih (n + 1) b hv.2 (by omega) m hm
    | get =>
      rw [validFrom] at hv
      simp only [Bool.and_eq_true, decide_eq_true_eq] at hv
      simp only [occupancies, List.mem_cons] at hm
      rcases hm with rfl | hm
      · exact hn
      · exact ih (n - 1) b hv.2 (by omega) m hm

lemma validFrom_unbounded_puts :
    ∀ (k n : ℕ), validFrom none n (List.replicate k QEvent.put) = true := by
  intro k
  induction k with
  | zero => intro n; rfl
  | succ k ih =>
    intro n
    rw [List.replicate_succ, validFrom]
    simp only [Bool.and_eq_true]
    exact ⟨trivial, ih (n + 1)⟩

lemma foldl_bits_shift :
    ∀ (bits : List Bool) (acc : ℕ),
      bits.foldl (fun a b => 2 * a + (if b then 1 else 0)) acc =
        acc * 2 ^ bits.length + bit_vector_to_int bits := by
  intro bits
  induction bits with
  | nil => intro acc; simp [bit_vector_to_int]
  | cons b bs ih =>
    intro acc
    simp only [List.foldl_cons, List.length_cons, bit_vector_to_int] at ih ⊢
    rw [ih (2 * acc + (if b then 1 else 0)), ih (2 * 0 + (if b then 1 else 0))]
    ring

lemma bit_vector_to_int_cons (b : Bool) (bs : List Bool) :
    bit_vector_to_int (b :: bs) =
      (if b then 2 ^ bs.length else 0) + bit_vector_to_int bs := by
  rw [bit_vector_to_int, List.foldl_cons, foldl_bits_shift]
  cases b
  · simp [bit_vector_to_int]
  · simp [bit_vector_to_int]

lemma bit_vector_to_int_lt :
    ∀ bits : List Bool, bit_vector_to_int bits < 2 ^ bits.length := by
  intro bits
  induction bits with
  | nil => simp [bit_vector_to_int]
  | cons b bs ih =>
    rw [bit_vector_to_int_cons, List.length_cons, pow_succ]
    cases b
    · simp only [Bool.false_eq_true, if_false]
      omega
    · simp only [if_true]
      omega

section Lemmas

variable {α : Type} [LinearOrderedCommRing α]

lemma runLoop_nil (batch : ℕ) (cols : List (List α)) (m_vec : List α)
    (d : List (Elem α)) : runLoop batch cols m_vec [] d = ⟨[], true⟩ := rfl

lemma runLoop_none (batch : ℕ) (cols : List (List α)) (m_vec : List α)
    (ps : List (Packet α)) (d : List (Elem α)) :
    runLoop batch cols m_vec (none :: ps) d = flushTail cols m_vec d := rfl

lemma runLoop_some (batch : ℕ) (cols : List (List α)) (m_vec : List α)
    (e : Elem α) (ps : List (Packet α)) (d : List (Elem α)) :
    runLoop batch cols m_vec (some e :: ps) d =
      if e.truthy then
        if batch ≤ (d ++ [e]).length then
          stepFull (emitBatch cols m_vec (d ++ [e]))
            (runLoop batch cols m_vec ps [])
        else runLoop batch cols m_vec ps (d ++ [e])
      else flushTail cols m_vec d := by
  rw [runLoop]

lemma quantize_of_shapesOk {cols : List (List α)} {m_vec : List α}
    {vecs : List (List α)} (h : shapesOk cols m_vec vecs = true) :
    quantize cols m_vec vecs =
      Except.ok (vecs.map (fun v => smallCode cols m_vec v)) := by
  simp [quantize, h]

lemma quantize_of_not_shapesOk {cols : List (List α)} {m_vec : List α}
    {vecs : List (List α)} (h : shapesOk cols m_vec vecs = false) :
    quantize cols m_vec vecs = Except.error QuantizeError.shapeMismatch := by
  simp [quantize, h]

lemma emitBatch_of_shapesOk {cols : List (List α)} {m_vec : List α}
    {d : List (Elem α)} (h : shapesOk cols m_vec (d.map Elem.vec) = true) :
    emitBatch cols m_vec d =
      Except.ok ((d.map (elemCode cols m_vec)).zip d) := by
  rw [emitBatch, quantize_of_shapesOk h]
  show Except.ok (((d.map Elem.vec).map (fun v => smallCode cols m_vec v)).zip d) = _
  rw [List.map_map]
  rfl

lemma emitBatch_of_not_shapesOk {cols : List (List α)} {m_vec : List α}
    {d : List (Elem α)} (h : shapesOk cols m_vec (d.map Elem.vec) = false) :
    emitBatch cols m_vec d = Except.error QuantizeError.shapeMismatch := by
  rw [emitBatch, quantize_of_not_shapesOk h]
  simp [Except.map]

lemma emitBatch_eq_ok {cols : List (List α)} {m_vec : List α}
    {d : List (Elem α)} {outs : List (ℕ × Elem α)}
    (h : emitBatch cols m_vec d = Except.ok outs) :
    outs = (d.map (elemCode cols m_vec)).zip d := by
  by_cases hs : shapesOk cols m_vec (d.map Elem.vec) = true
  · rw [emitBatch_of_shapesOk hs] at h
    exact (Except.ok.injEq _ _ ▸ congrArg id h) ▸ (Except.ok.inj h).symm
  · rw [emitBatch_of_not_shapesOk (Bool.eq_false_iff.mpr hs)] at h
    exact absurd h (by simp)

lemma flushTail_out_mem {cols : List (List α)} {m_vec : List α}
    {d : List (Elem α)} {p : ℕ × Elem α}
    (hp : p ∈ (flushTail cols m_vec d).out) :
    p.1 = elemCode cols m_vec p.2 ∧ p.2 ∈ d := by
  rw [flushTail] at hp
  by_cases hd : d.isEmpty
  · simp [hd] at hp
  · simp only [hd, Bool.false_eq_true, if_false] at hp
    cases hq : emitBatch cols m_vec d with
    | ok outs =>
      rw [hq] at hp
      simp only [flushResult] at hp
      rw [emitBatch_eq_ok hq] at hp
      exact mem_zip_map_self _ hp
    | error err =>
      rw [hq] at hp
      simp [flushResult] at hp

lemma runLoop_out_mem {batch : ℕ} {cols : List (List α)} {m_vec : List α} :
    ∀ {ps : List (Packet α)} {d : List (Elem α)} {p : ℕ × Elem α},
      p ∈ (runLoop batch cols m_vec ps d).out →
      p.1 = elemCode cols m_vec p.2 ∧ p.2 ∈ d ++ ps.filterMap id := by
  intro ps
  induction ps with
  | nil => intro d p hp; simp [runLoop_nil] at hp
  | cons head ps ih =>
    intro d p hp
    cases head with
    | none =>
      rw [runLoop_none] at hp
      rcases flushTail_out_mem hp with ⟨h1, h2⟩
      exact ⟨h1, List.mem_append_left _ h2⟩
    | some e =>
      rw [runLoop_some] at hp
      rw [filterMap_id_cons_some]
      by_cases he : e.truthy = true
      · simp only [he, if_true] at hp
        by_cases hb : batch ≤ (d ++ [e]).length
        · simp only [hb, if_true] at hp
          cases hq : emitBatch cols m_vec (d ++ [e]) with
          | ok outs =>
            rw [hq] at hp
            simp only [stepFull, List.mem_append] at hp
            rcases hp with hp | hp
            · rw [emitBatch_eq_ok hq] at hp
              rcases mem_zip_map_self _ hp with ⟨h1, h2⟩
              refine ⟨h1, ?_⟩
              rcases List.mem_append.mp h2 with h3 | h3
              · exact List.mem_append_left _ h3
              · have h4 : p.2 = e := List.mem_singleton.mp h3
                exact List.mem_append_right _ (h4 ▸ List.mem_cons_self _ _)
            · rcases ih hp with ⟨h1, h2⟩
              refine ⟨h1, ?_⟩
              rw [List.nil_append] at h2
              exact List.mem_append_right _ (List.mem_cons_of_mem _ h2)
          | error err =>
            rw [hq] at hp
            simp [stepFull] at hp
        · simp only [hb, if_false] at hp
          rcases ih hp with ⟨h1, h2⟩
          refine ⟨h1, ?_⟩
          rw [List.append_assoc, List.singleton_append] at h2
          exact h2
      · simp only [he, if_false] at hp
        rcases flushTail_out_mem hp with ⟨h1, h2⟩
        exact ⟨h1, List.mem_append_left _ h2⟩

lemma flushTail_good {cols : List (List α)} {m_vec : List α}
    {d : List (Elem α)} (hd : GoodElems m_vec d) (hc : ColsOk cols m_vec) :
    flushTail cols m_vec d = ⟨(d.map (elemCode cols m_vec)).zip d, true⟩ := by
  rw [flushTail]
  by_cases he : d.isEmpty
  · rw [if_pos he]
    rw [List.isEmpty_iff] at he
    subst he
    rfl
  · rw [if_neg he, emitBatch_of_shapesOk (shapesOk_of_good hd hc)]
    rfl

lemma runLoop_good (batch : ℕ) {cols : List (List α)} {m_vec : List α}
    (hc : ColsOk cols m_vec) :
    ∀ {elems d : List (Elem α)}, GoodElems m_vec elems → GoodElems m_vec d →
      ((runLoop batch cols m_vec (elems.map some ++ [none]) d).out.map
          Prod.snd = d ++ elems)
      ∧ (runLoop batch cols m_vec (elems.map some ++ [none]) d).ok = true := by
  intro elems
  induction elems with
  | nil =>
    intro d he hd
    simp only [List.map_nil, List.nil_append, runLoop_none]
    rw [flushTail_good hd hc]
    exact ⟨(zip_map_self_snd _ _).trans (List.append_nil d).symm, rfl⟩
  | cons e es ih =>
    intro d he hd
    have hee : e.truthy = true ∧ e.vec.length = m_vec.length :=
      he e (List.mem_cons_self _ _)
    have hes : GoodElems m_vec es := fun x hx => he x (List.mem_cons_of_mem _ hx)
    have hde : GoodElems m_vec (d ++ [e]) := by
      intro x hx
      rcases List.mem_append.mp hx with h | h
      · exact hd x h
      · have hxe : x = e := List.mem_singleton.mp h
        exact hxe ▸ hee
    simp only [List.map_cons, List.cons_append, runLoop_some, hee.1, if_true]
    by_cases hb : batch ≤ (d ++ [e]).length
    · simp only [hb, if_true]
      rw [emitBatch_of_shapesOk (shapesOk_of_good hde hc)]
      rcases @ih [] hes goodElems_nil with ⟨ih1, ih2⟩
      constructor
      · simp only [stepFull]
        rw [List.map_append, zip_map_self_snd, ih1, List.nil_append,
          List.append_assoc, List.singleton_append]
      · exact ih2
    · simp only [hb, if_false]
      rcases @ih (d ++ [e]) hes hde with ⟨ih1, ih2⟩
      refine ⟨?_, ih2⟩
      rw [ih1, List.append_assoc, List.singleton_append]

lemma spec_cons (x : α) (z : List α) :
    spec_sign_pattern_code (x :: z) =
      (if 0 ≤ x then 2 ^ z.length else 0) + spec_sign_pattern_code z := by
  unfold spec_sign_pattern_code
  rw [List.length_cons, List.range_succ_eq_map]
  simp only [List.map_cons, List.map_map, List.sum_cons]
  congr 1
  apply congrArg List.sum
  apply List.map_congr_left
  intro i hi
  simp only [Function.comp_apply, List.getD_cons_succ]
  congr 2
  omega

lemma bvi_map_signBit (z : List α) :
    bit_vector_to_int (z.map signBit) = spec_sign_pattern_code z := by
  induction z with
  | nil => rfl
  | cons x z ih =>
    rw [List.map_cons, bit_vector_to_int_cons, spec_cons, ih, List.length_map]
    congr 1
    by_cases h : (0 : α) ≤ x
    · simp [signBit, h]
    · simp [signBit, h]

lemma broadcastSub_eq_vecSub {v m_vec : List α}
    (h : v.length = m_vec.length) :
    broadcastSub v m_vec = vecSub v m_vec := by
  rw [broadcastSub, if_pos h]

lemma smallCode_eq_spec (cols : List (List α)) (m_vec v : List α) :
    smallCode cols m_vec v =
      spec_sign_pattern_code (rowTimesMat (broadcastSub v m_vec) cols) := by
  rw [smallCode]
  exact bvi_map_signBit _

lemma smallCode_eq_spec_vecSub {cols : List (List α)} {m_vec v : List α}
    (h : v.length = m_vec.length) :
    smallCode cols m_vec v =
      spec_sign_pattern_code (rowTimesMat (vecSub v m_vec) cols) := by
  rw [smallCode_eq_spec, broadcastSub_eq_vecSub h]

lemma smallCode_lt (cols : List (List α)) (m_vec v : List α) :
    smallCode cols m_vec v < 2 ^ cols.length := by
  rw [smallCode]
  have h := bit_vector_to_int_lt
    ((rowTimesMat (broadcastSub v m_vec) cols).map signBit)
  rw [List.length_map, rowTimesMat, List.length_map] at h
  exact h

lemma runLoop_falsy_eq {batch : ℕ} {cols : List (List α)} {m_vec : List α} :
    ∀ (good : List (Elem α)) (d : List (Elem α)) (f : Elem α)
      (ps : List (Packet α)), (∀ e ∈ good, e.truthy = true) →
      f.truthy = false →
      runLoop batch cols m_vec (good.map some ++ some f :: ps) d =
        runLoop batch cols m_vec (good.map some ++ [none]) d := by
  intro good
  induction good with
  | nil =>
    intro d f ps _ hf
    simp only [List.map_nil, List.nil_append]
    rw [runLoop_some, runLoop_none, if_neg]
    rw [hf]
    exact Bool.false_ne_true
  | cons e es ih =>
    intro d f ps hg hf
    have hets : e.truthy = true := hg e (List.mem_cons_self _ _)
    have hgs : ∀ x ∈ es, x.truthy = true :=
      fun x hx => hg x (List.mem_cons_of_mem _ hx)
    simp only [List.map_cons, List.cons_append]
    rw [runLoop_some, runLoop_some, hets]
    simp only [if_true]
    rw [ih [] f ps hgs hf, ih (d ++ [e]) f ps hgs hf]

lemma filterMap_id_map_some {β : Type} (l : List β) :
    (l.map some).filterMap id = l := by
  induction l with
  | nil => rfl
  | cons x xs ih =>
    rw [List.map_cons, filterMap_id_cons_some, ih]

end Lemmas

/-- C1: every pair a worker emits carries as its code the bit-packed sign
pattern of z = (v - mean) . rotation for the vector v of the carried
element, where v - mean is the numpy subtraction (the broadcast row): bit
i is 1 exactly when component i of z is greater than or equal to zero (an
exact zero gives bit 1), packed under the one fixed
most-significant-first convention of spec_sign_pattern_code, uniformly for
every batch of the whole run; on the claim's scope of D-length vectors the
row is the plain elementwise difference v - mean. -/
theorem C1_code_is_packed_sign_pattern {α : Type} [LinearOrderedCommRing α]
    (batch : ℕ) (cols : List (List α)) (m_vec : List α)
    (packets : List (Packet α)) (p : ℕ × Elem α)
    (hp : p ∈ (SmallCodeProcess_run batch cols m_vec packets).out) :
    p.1 = spec_sign_pattern_code
        (rowTimesMat (broadcastSub p.2.vec m_vec) cols) ∧
    (p.2.vec.length = m_vec.length →
      p.1 = spec_sign_pattern_code
        (rowTimesMat (vecSub p.2.vec m_vec) cols)) := by
  rw [SmallCodeProcess_run] at hp
  have h := runLoop_out_mem hp
  constructor
  · rw [h.1, elemCode, smallCode_eq_spec]
  · intro hlen
    rw [h.1, elemCode, smallCode_eq_spec_vecSub hlen]

/-- Closed instance of C1 at a concrete worker run over the integers. -/
theorem C1_witness :
    ((1 : ℕ), (⟨1, [5], true⟩ : Elem ℤ)) ∈
      (SmallCodeProcess_run 1 [[1]] [0] [some ⟨1, [5], true⟩, none]).out ∧
    (((1 : ℕ), (⟨1, [5], true⟩ : Elem ℤ)).1 =
      spec_sign_pattern_code
        (rowTimesMat (broadcastSub (⟨1, [5], true⟩ : Elem ℤ).vec [0])
          [[1]]) ∧
     ((⟨1, [5], true⟩ : Elem ℤ).vec.length = ([0] : List ℤ).length →
      ((1 : ℕ), (⟨1, [5], true⟩ : Elem ℤ)).1 =
        spec_sign_pattern_code
          (rowTimesMat (vecSub (⟨1, [5], true⟩ : Elem ℤ).vec [0])
            [[1]]))) :=
  ⟨by decide,
    C1_code_is_packed_sign_pattern 1 [[1]] [0]
      [some ⟨1, [5], true⟩, none] ((1 : ℕ), (⟨1, [5], true⟩ : Elem ℤ))
      (by decide)⟩

/-- C3: the claim is that the dispatcher detects a worker failure,
terminates the other workers and fails; the code instead has no detection
path at all. At this concrete input the one worker dies of the numpy shape
error after consuming the only element, so fewer results than requested
ever reach the output queue and the collection loop of
async_compute_smallcodes blocks forever in out_q.get, modelled by the
value none: the call neither surfaces the failure nor returns a partial
result. -/
theorem C3_worker_failure_blocks_dispatcher :
    async_compute_smallcodes 1 [[3]] [(0 : ℤ)] [⟨1, [1, 2], true⟩] [0] =
      none ∧
    (SmallCodeProcess_run default_batch [[3]] [(0 : ℤ)]
      [some ⟨1, [1, 2], true⟩, none]).ok = false := by
  decide

/-- C4: a worker that receives the termination sentinel flushes its
partially filled batch, emitting exactly one result pair per pending
element, and consequently a worker fed any element list followed by the
sentinel, of any size, in particular one not divisible by the batch size,
produces exactly one result per element. -/
theorem C4_flush_on_sentinel {α : Type} [LinearOrderedCommRing α]
    (batch : ℕ) (cols : List (List α)) (m_vec : List α)
    (ps : List (Packet α)) (d : List (Elem α))
    (hd : GoodElems m_vec d) (hcols : ColsOk cols m_vec) :
    runLoop batch cols m_vec (none :: ps) d =
      ⟨(d.map (elemCode cols m_vec)).zip d, true⟩ ∧
    ∀ elems : List (Elem α), GoodElems m_vec elems →
      (SmallCodeProcess_run batch cols m_vec
        (elems.map some ++ [none])).out.length = elems.length := by
  constructor
  · rw [runLoop_none]
    exact flushTail_good hd hcols
  · intro elems he
    rw [SmallCodeProcess_run]
    have h := (runLoop_good batch hcols he goodElems_nil).1
    have hl := congrArg List.length h
    rw [List.length_map, List.nil_append] at hl
    exact hl

/-- Closed instance of C4: three elements with batch size two (a size not
divisible by the batch size) still give one result each, via the flush. -/
theorem C4_witness :
    (SmallCodeProcess_run 2 [[1]] [(0 : ℤ)]
      ([⟨1, [5], true⟩, ⟨2, [-3], true⟩, ⟨3, [0], true⟩].map some ++
        [none])).out.length = 3 :=
  (C4_flush_on_sentinel 2 [[1]] [(0 : ℤ)] [] [] (by decide) (by decide)).2
    [⟨1, [5], true⟩, ⟨2, [-3], true⟩, ⟨3, [0], true⟩] (by decide)

/-- C5: every code the quantizer returns is below 2 to the power B, where
B is the number of columns of the rotation matrix (as a natural number it
is also non-negative). -/
theorem C5_codes_in_range {α : Type} [LinearOrderedCommRing α]
    (cols : List (List α)) (m_vec : List α) (vecs : List (List α))
    (codes : List ℕ)
    (hq : quantize cols m_vec vecs = Except.ok codes) :
    ∀ c ∈ codes, c < 2 ^ cols.length := by
  intro c hcode
  by_cases hs : shapesOk cols m_vec vecs = true
  · rw [quantize_of_shapesOk hs] at hq
    have hcodes : codes = vecs.map (fun v => smallCode cols m_vec v) :=
      (Except.ok.inj hq).symm
    rcases List.mem_map.mp (hcodes ▸ hcode) with ⟨v, hv, rfl⟩
    exact smallCode_lt cols m_vec v
  · rw [quantize_of_not_shapesOk (Bool.eq_false_iff.mpr hs)] at hq
    exact absurd hq (by simp)

/-- Closed instance of C5 at a concrete two-bit quantization. -/
theorem C5_witness :
    (2 : ℕ) < 2 ^ ([[1], [-1]] : List (List ℤ)).length :=
  C5_codes_in_range [[1], [-1]] [(0 : ℤ)] [[5]] [2] (by rfl) 2 (by decide)

/-- C2: for every finite element sequence fed to the dispatcher, every
schedule of elements to workers and well-shaped truthy inputs, the
dispatcher returns exactly N result pairs whose multiset of identities is
a permutation of the identities sent, hence equal as a set with no
duplicates and no omissions. -/
theorem C2_dispatcher_count_and_identities {α : Type}
    [LinearOrderedCommRing α]
    (procs : ℕ) (cols : List (List α)) (m_vec : List α)
    (elems : List (Elem α)) (sched : List ℕ)
    (hlen : sched.length = elems.length)
    (hsched : ∀ s ∈ sched, s < procs)
    (helems : GoodElems m_vec elems)
    (hcols : ColsOk cols m_vec) :
    ∃ res, async_compute_smallcodes procs cols m_vec elems sched =
        some res ∧
      res.length = elems.length ∧
      (res.map (fun p => p.2.uuid)).Perm (elems.map Elem.uuid) := by
  have hw : ∀ w : ℕ,
      (SmallCodeProcess_run default_batch cols m_vec
        (workerPackets w sched elems)).out.map Prod.snd =
        assignedTo w sched elems := by
    intro w
    have hga : GoodElems m_vec (assignedTo w sched elems) :=
      fun x hx => helems x (mem_assignedTo hx)
    rw [SmallCodeProcess_run, workerPackets]
    have h := (runLoop_good default_batch hcols hga
      goodElems_nil).1
    rwa [List.nil_append] at h
  have hout : (dispatchOutputs procs cols m_vec elems sched).map Prod.snd =
      (List.range procs).flatMap (fun w => assignedTo w sched elems) := by
    rw [dispatchOutputs, List.map_flatMap]
    exact congrArg (fun f => (List.range procs).flatMap f)
      (funext fun w => hw w)
  have hperm :
      ((dispatchOutputs procs cols m_vec elems sched).map Prod.snd).Perm
        elems := by
    rw [hout]
    exact assigned_perm procs sched elems hlen hsched
  have hlen2 : (dispatchOutputs procs cols m_vec elems sched).length =
      elems.length := by
    have h := hperm.length_eq
    rwa [List.length_map] at h
  refine ⟨dispatchOutputs procs cols m_vec elems sched, ?_, hlen2, ?_⟩
  · rw [async_compute_smallcodes, if_pos (le_of_eq hlen2.symm)]
    rw [← hlen2, List.take_length]
  · have hmm : (dispatchOutputs procs cols m_vec elems sched).map
        (fun p => p.2.uuid) =
        ((dispatchOutputs procs cols m_vec elems sched).map Prod.snd).map
          Elem.uuid := by
      rw [List.map_map]
      rfl
    rw [hmm]
    exact hperm.map Elem.uuid

/-- Closed instance of C2: two workers, three elements, a two-bit
rotation over the integers. -/
theorem C2_witness :
    ∃ res, async_compute_smallcodes 2 [[1], [-1]] [(0 : ℤ)]
        [⟨1, [5], true⟩, ⟨2, [-3], true⟩, ⟨3, [0], true⟩] [0, 1, 0] =
        some res ∧
      res.length =
        [(⟨1, [5], true⟩ : Elem ℤ), ⟨2, [-3], true⟩, ⟨3, [0], true⟩].length ∧
      (res.map (fun p => p.2.uuid)).Perm
        ([(⟨1, [5], true⟩ : Elem ℤ), ⟨2, [-3], true⟩,
          ⟨3, [0], true⟩].map Elem.uuid) :=
  C2_dispatcher_count_and_identities 2 [[1], [-1]] [(0 : ℤ)]
    [⟨1, [5], true⟩, ⟨2, [-3], true⟩, ⟨3, [0], true⟩] [0, 1, 0]
    (by decide) (by decide) (by decide) (by decide)

/-- C6: the quantizer returns exactly one code per input vector, in input
order, and a worker fed a list of elements followed by the sentinel emits
its result pairs in exactly the order it received the elements. -/
theorem C6_one_code_per_vector_in_order {α : Type} [LinearOrderedCommRing α]
    (batch : ℕ) (cols : List (List α)) (m_vec : List α)
    (vecs : List (List α)) (codes : List ℕ) (elems : List (Elem α))
    (hq : quantize cols m_vec vecs = Except.ok codes)
    (helems : GoodElems m_vec elems) (hcols : ColsOk cols m_vec) :
    codes.length = vecs.length ∧
    codes = vecs.map (fun v => smallCode cols m_vec v) ∧
    (SmallCodeProcess_run batch cols m_vec
      (elems.map some ++ [none])).out.map Prod.snd = elems := by
  have hcodes : codes = vecs.map (fun v => smallCode cols m_vec v) := by
    by_cases hs : shapesOk cols m_vec vecs = true
    · rw [quantize_of_shapesOk hs] at hq
      exact (Except.ok.inj hq).symm
    · rw [quantize_of_not_shapesOk (Bool.eq_false_iff.mpr hs)] at hq
      exact absurd hq (by simp)
  refine ⟨by rw [hcodes, List.length_map], hcodes, ?_⟩
  rw [SmallCodeProcess_run]
  have h := (runLoop_good batch hcols helems goodElems_nil).1
  rwa [List.nil_append] at h

/-- Closed instance of C6 over the integers with a two-bit rotation. -/
theorem C6_witness :
    ([(2 : ℕ), 1] : List ℕ).length = [[(5 : ℤ)], [-3]].length ∧
    ([(2 : ℕ), 1] : List ℕ) =
      [[(5 : ℤ)], [-3]].map (fun v => smallCode [[1], [-1]] [(0 : ℤ)] v) ∧
    (SmallCodeProcess_run 1 [[1], [-1]] [(0 : ℤ)]
      ([⟨1, [5], true⟩, ⟨2, [-3], true⟩].map some ++ [none])).out.map
        Prod.snd = [⟨1, [5], true⟩, ⟨2, [-3], true⟩] :=
  C6_one_code_per_vector_in_order 1 [[1], [-1]] [(0 : ℤ)] [[5], [-3]]
    [2, 1] [⟨1, [5], true⟩, ⟨2, [-3], true⟩] (by rfl) (by decide)
    (by decide)

/-- C7: the dispatcher appends exactly procs terminal sentinels to the fed
stream, and for any delivery of the fed packets to the workers in which
every worker stops after its first sentinel (so consumes at most one),
every one of the procs workers receives exactly one sentinel; a packet
list holding a sentinel makes the receive loop of its worker observe a
falsy packet and exit. -/
theorem C7_one_sentinel_per_worker {α : Type} [DecidableEq α]
    (elems : List (Elem α)) (procs : ℕ) :
    (fedPackets elems procs).count (none : Packet α) = procs ∧
    (∀ delivered : ℕ → List (Packet α),
      ((List.range procs).map
        (fun w => (delivered w).count (none : Packet α))).sum =
          (fedPackets elems procs).count (none : Packet α) →
      (∀ w, w < procs → (delivered w).count (none : Packet α) ≤ 1) →
      ∀ w, w < procs → (delivered w).count (none : Packet α) = 1) ∧
    (∀ ps : List (Packet α), ps.count (none : Packet α) = 1 →
      observes_sentinel ps = true) := by
  have hcount : (fedPackets elems procs).count (none : Packet α) = procs := by
    rw [fedPackets, List.count_append]
    have h1 : (elems.map some).count (none : Packet α) = 0 :=
      List.count_eq_zero.mpr (by simp)
    have h2 : (List.replicate procs (none : Packet α)).count
        (none : Packet α) = procs := by
      rw [List.count_replicate]
      simp
    rw [h1, h2, Nat.zero_add]
  refine ⟨hcount, ?_, ?_⟩
  · intro delivered hsum hle
    exact sum_map_range_all_one _ procs hle (by rwa [hcount] at hsum)
  · intro ps hone
    have hmem : (none : Packet α) ∈ ps := by
      by_contra hcon
      rw [List.count_eq_zero.mpr hcon] at hone
      omega
    rw [observes_sentinel, List.any_eq_true]
    exact ⟨none, hmem, rfl⟩

/-- Closed instance of C7: one element, two workers, a concrete delivery
giving each worker one sentinel. -/
theorem C7_witness :
    ([some (⟨1, [5], true⟩ : Elem ℤ), none] : List (Packet ℤ)).count
      none = 1 :=
  (C7_one_sentinel_per_worker [(⟨1, [5], true⟩ : Elem ℤ)] 2).2.1
    (fun w => if w = 0 then [some ⟨1, [5], true⟩, none] else [none])
    (by decide) (by decide) 0 (by decide)

/-- C8: the dispatcher creates the output queue with the fixed bound
2 times procs and the input queue unbounded; along any valid event trace
of the bounded output queue the occupancy never exceeds 2 times procs,
and on the unbounded input queue any sequence of puts is valid, so the
feed loop never blocks. -/
theorem C8_output_queue_bound (procs : ℕ) :
    (make_out_q procs).maxsize = some (2 * procs) ∧
    make_in_q.maxsize = none ∧
    (∀ tr : List QEvent,
      validFrom (make_out_q procs).maxsize 0 tr = true →
      ∀ m ∈ occupancies 0 tr, m ≤ 2 * procs) ∧
    (∀ k : ℕ,
      validFrom make_in_q.maxsize 0 (List.replicate k QEvent.put) = true) := by
  have hmax : (make_out_q procs).maxsize = some (2 * procs) := by
    rw [make_out_q, Nat.mul_comm]
  refine ⟨hmax, rfl, ?_, ?_⟩
  · intro tr hv
    rw [hmax] at hv
    exact validFrom_bounded tr 0 (2 * procs) hv (Nat.zero_le _)
  · intro k
    exact validFrom_unbounded_puts k 0

/-- Closed instance of C8: with one worker, after two puts the occupancy
2 observed on the output queue is within the bound. -/
theorem C8_witness : (2 : ℕ) ≤ 2 * 1 :=
  (C8_output_queue_bound 1).2.2.1 [QEvent.put, QEvent.put, QEvent.get]
    (by decide) 2 (by decide)

/-- C9 counterexample: the claim as stated is false of the program,
because numpy broadcasting accepts size-1 dimensions. First case: the
vector [5] has length 1, different from the mean length 2, yet the batch
broadcasts against the mean and the quantizer returns a code instead of
failing. Second case: the rotation rows (column length 2) disagree with
the mean length 1, yet the length-1 mean broadcasts against the 2-length
vector and the quantizer again returns a code. -/
theorem C9_counterexample :
    (([(5 : ℤ)] : List ℤ).length ≠ ([(0 : ℤ), 0] : List ℤ).length ∧
      quantize [[1, 0], [0, 1]] [(0 : ℤ), 0] [[5]] = Except.ok [3]) ∧
    (([(1 : ℤ), 0] : List ℤ).length ≠ ([(0 : ℤ)] : List ℤ).length ∧
      quantize [[(1 : ℤ), 0]] [(0 : ℤ)] [[1, 2]] = Except.ok [1]) :=
  ⟨⟨by decide, by rfl⟩, ⟨by decide, by rfl⟩⟩

/-- C9 amended: the quantizer fails with the shape mismatch error exactly
when the batch is not numpy-broadcast-compatible with the transform: some
vector in the batch differs in length from the first, or the common
vector length and the mean length differ with neither equal to one, or
some rotation column length differs from the broadcast dimension; in the
numpy size-1 broadcast cases excluded here the code silently succeeds.
When the error does occur, the worker flushing such a batch dies at once
with no output and no retry, whatever packets remain. -/
theorem C9_shape_mismatch_fatal {α : Type} [LinearOrderedCommRing α]
    (batch : ℕ) (cols : List (List α)) (m_vec : List α)
    (v0 : List α) (vs : List (List α))
    (h : (∃ v ∈ v0 :: vs, v.length ≠ v0.length) ∨
         (v0.length ≠ m_vec.length ∧ v0.length ≠ 1 ∧ m_vec.length ≠ 1) ∨
         (∃ c ∈ cols, c.length ≠ broadcastDim v0.length m_vec.length)) :
    quantize cols m_vec (v0 :: vs) =
      Except.error QuantizeError.shapeMismatch ∧
    ∀ (d : List (Elem α)) (ps : List (Packet α)),
      d.map Elem.vec = v0 :: vs →
      runLoop batch cols m_vec (none :: ps) d = ⟨[], false⟩ := by
  have hs : shapesOk cols m_vec (v0 :: vs) = false := by
    rw [Bool.eq_false_iff]
    intro htrue
    rw [shapesOk, Bool.and_eq_true, Bool.and_eq_true, List.all_eq_true,
      List.all_eq_true, Bool.or_eq_true, Bool.or_eq_true] at htrue
    rcases h with ⟨v, hv, hne⟩ | ⟨h1, h2, h3⟩ | ⟨c, hcm, hne⟩
    · exact hne (beq_iff_eq.mp (htrue.1 v hv))
    · rcases htrue.2.1 with (hcomp | hcomp) | hcomp
      · exact h1 (beq_iff_eq.mp hcomp)
      · exact h2 (beq_iff_eq.mp hcomp)
      · exact h3 (beq_iff_eq.mp hcomp)
    · exact hne (beq_iff_eq.mp (htrue.2.2 c hcm))
  constructor
  · exact quantize_of_not_shapesOk hs
  · intro d ps hdv
    have hne2 : ¬(d.isEmpty = true) := by
      rw [List.isEmpty_iff]
      intro hnil
      rw [hnil, List.map_nil] at hdv
      exact List.noConfusion hdv
    rw [runLoop_none, flushTail, if_neg hne2,
      emitBatch_of_not_shapesOk (by rw [hdv]; exact hs)]
    rfl

/-- Closed instance of the amended C9: a rotation with one-length columns
cannot multiply the broadcast 2-dimensional rows, so the quantizer fails
and the worker dies (this is the failing input of C3). -/
theorem C9_witness :
    quantize [[3]] [(0 : ℤ)] [[1, 2]] =
      Except.error QuantizeError.shapeMismatch ∧
    runLoop 1 [[3]] [(0 : ℤ)] [none] [⟨1, [1, 2], true⟩] = ⟨[], false⟩ :=
  ⟨(C9_shape_mismatch_fatal 1 [[3]] [(0 : ℤ)] [1, 2] []
      (Or.inr (Or.inr ⟨[3], by decide, by decide⟩))).1,
   (C9_shape_mismatch_fatal 1 [[3]] [(0 : ℤ)] [1, 2] []
      (Or.inr (Or.inr ⟨[3], by decide, by decide⟩))).2 [⟨1, [1, 2], true⟩]
      [] rfl⟩

/-- C10: the receive loop exits on the first falsy packet, not only on the
None sentinel: a worker that dequeues a falsy element after a truthy
prefix behaves exactly as if the stream had ended there with the sentinel,
ignores everything after it, and the falsy element itself is never
quantized or re-emitted. -/
theorem C10_falsy_packet_exits_loop {α : Type} [LinearOrderedCommRing α]
    (batch : ℕ) (cols : List (List α)) (m_vec : List α)
    (good : List (Elem α)) (f : Elem α) (ps : List (Packet α))
    (hg : ∀ e ∈ good, e.truthy = true)
    (hf : f.truthy = false) (hnf : f ∉ good) :
    SmallCodeProcess_run batch cols m_vec
        (good.map some ++ some f :: ps) =
      SmallCodeProcess_run batch cols m_vec (good.map some ++ [none]) ∧
    f ∉ ((SmallCodeProcess_run batch cols m_vec
      (good.map some ++ some f :: ps)).out.map Prod.snd) := by
  have heq : SmallCodeProcess_run batch cols m_vec
      (good.map some ++ some f :: ps) =
      SmallCodeProcess_run batch cols m_vec (good.map some ++ [none]) := by
    rw [SmallCodeProcess_run, SmallCodeProcess_run]
    exact runLoop_falsy_eq good [] f ps hg hf
  refine ⟨heq, ?_⟩
  intro hmem
  rcases List.mem_map.mp hmem with ⟨p, hp, hpf⟩
  rw [heq, SmallCodeProcess_run] at hp
  have h := (runLoop_out_mem hp).2
  rw [List.nil_append, List.filterMap_append, filterMap_id_map_some] at h
  have hemp : (([none] : List (Packet α)).filterMap id) = [] := rfl
  rw [hemp, List.append_nil] at h
  exact hnf (hpf ▸ h)

/-- Closed instance of C10: a falsy element stops the worker early over
the integers. -/
theorem C10_witness :
    SmallCodeProcess_run 1 [[1]] [(0 : ℤ)]
        ([⟨1, [5], true⟩].map some ++ some ⟨2, [7], false⟩ ::
          [some ⟨3, [9], true⟩, none]) =
      SmallCodeProcess_run 1 [[1]] [(0 : ℤ)]
        ([⟨1, [5], true⟩].map some ++ [none]) ∧
    (⟨2, [7], false⟩ : Elem ℤ) ∉
      ((SmallCodeProcess_run 1 [[1]] [(0 : ℤ)]
        ([⟨1, [5], true⟩].map some ++ some ⟨2, [7], false⟩ ::
          [some ⟨3, [9], true⟩, none])).out.map Prod.snd) :=
  C10_falsy_packet_exits_loop 1 [[1]] [(0 : ℤ)] [⟨1, [5], true⟩]
    ⟨2, [7], false⟩ [some ⟨3, [9], true⟩, none] (by decide) (by decide)
    (by decide)

end AddCodes
